import Mathlib

/-!
Verification of the selection-policy core of an MCTS framework
(`tree_policy.rs`): the UCT and AlphaGo-style tree policies, the uniform
tie-break selection primitive (`PolicyRng::select_by_key`), the weighted
sampling selection primitive (`WeightedRng::select_by_key`), the reciprocal
table, and the evaluation-validation contract.

Modelling conventions: `u64`/`usize` counters become `ℕ`, the signed reward
total becomes `ℤ`, and `f64` values become `ℝ` (for score formulas involving
`sqrt`/`ln`) or `ℚ` (for the purely rational parts: constructor checks,
the reciprocal table, validation bounds, weighted-sampling weights).
Scores compared against `f64::NEG_INFINITY` / set to `f64::INFINITY` are
modelled as `EReal` (reals extended with `⊥` and `⊤`).  Panics (`assert!`,
`unwrap`) at the construction/validation boundary are modelled as `Option`
results, and the `unwrap` inside `WeightedRng::select_by_key` as
`Except Unit`.
-/

/-- Modelled from the spec: the seeded pseudo-random generator (`StdRng`,
`SeedableRng::seed_from_u64`) comes from the external `rand` crate; it is
modelled as a deterministic stream of uniform rational samples in `[0, 1)`
derived from the seed, together with a cursor.  The two invariant fields
record that each sample lies in `[0, 1)`. -/
structure StdRng where
  sample : ℕ → ℚ
  idx : ℕ
  sample_nonneg : ∀ n, 0 ≤ sample n
  sample_lt_one : ∀ n, sample n < 1

/-- Modelled from the spec: a concrete deterministic sample stream for a
given seed (the precise stream of `StdRng` is external; only determinism
per seed and uniformity in `[0,1)` matter to the claims). -/
def stdSample (seed n : ℕ) : ℚ :=
  ((((seed + n) * 6364136223846793005 + 1442695040888963407) % 2 ^ 64 : ℕ) : ℚ) / (2 ^ 64 : ℚ)

theorem stdSample_nonneg (seed n : ℕ) : 0 ≤ stdSample seed n :=
  div_nonneg (Nat.cast_nonneg _) (by positivity)

theorem stdSample_lt_one (seed n : ℕ) : stdSample seed n < 1 := by
  rw [stdSample, div_lt_one (by positivity)]
  exact_mod_cast Nat.mod_lt _ (by positivity)

/-- Modelled from the spec: `SeedableRng::seed_from_u64`. -/
def StdRng.seed_from_u64 (seed : ℕ) : StdRng :=
  ⟨stdSample seed, 0, stdSample_nonneg seed, stdSample_lt_one seed⟩

/-- Modelled from the rand crate contract: `Rng::gen_bool(p)` draws one
uniform sample `u ∈ [0,1)` and returns `u < p`, advancing the generator. -/
def StdRng.gen_bool (r : StdRng) (p : ℚ) : Bool × StdRng :=
  (decide (r.sample r.idx < p), { r with idx := r.idx + 1 })

/-- `PolicyRng` (tree_policy.rs:179-189): per-thread uniform tie-break
selection state, a wrapped `StdRng`. -/
structure PolicyRng where
  rng : StdRng

/-- `PolicyRng::new` (tree_policy.rs:184-189). -/
def PolicyRng.new (seed : ℕ) : PolicyRng :=
  ⟨StdRng.seed_from_u64 seed⟩

/-- `WeightedRng` (tree_policy.rs:174-177): per-thread weighted-sampling
selection state, a wrapped `StdRng`. -/
structure WeightedRng where
  rng : StdRng

/-- `WeightedRng::new` (tree_policy.rs:191-196). -/
def WeightedRng.new (seed : ℕ) : WeightedRng :=
  ⟨StdRng.seed_from_u64 seed⟩

/-- The loop of `PolicyRng::select_by_key` (tree_policy.rs:205-221):
streaming max with reservoir-style uniform tie-break.  State: current
`choice`, the count `num_optimal` of elements tied at the best score, and
`best_so_far`.  On a strictly better score the element is taken and the
count reset to 1; on a tie the count is incremented and the element
replaces the choice with probability `1 / num_optimal`. -/
def selectLoop {T α : Type} [LinearOrder α] (key_fn : T → α) :
    List T → Option T → ℕ → α → StdRng → Option T × StdRng
  | [], choice, _, _, rng => (choice, rng)
  | elt :: rest, choice, num_optimal, best_so_far, rng =>
    if best_so_far < key_fn elt then
      selectLoop key_fn rest (some elt) 1 (key_fn elt) rng
    else if key_fn elt = best_so_far then
      let br := rng.gen_bool (1 / ((num_optimal + 1 : ℕ) : ℚ))
      selectLoop key_fn rest (if br.1 then some elt else choice) (num_optimal + 1) best_so_far br.2
    else
      selectLoop key_fn rest choice num_optimal best_so_far rng

/-- `PolicyRng::select_by_key` (tree_policy.rs:198-223): the loop started
with no choice, a zero tie-count and `best_so_far = NEG_INFINITY` (`⊥`). -/
def PolicyRng.select_by_key {T α : Type} [LinearOrder α] [OrderBot α]
    (r : PolicyRng) (elts : List T) (key_fn : T → α) : Option T × PolicyRng :=
  ((selectLoop key_fn elts none 0 ⊥ r.rng).1, ⟨(selectLoop key_fn elts none 0 ⊥ r.rng).2⟩)

/-- Maximum of the scores of a list of elements, with `⊥` for the empty
list (the starting `best_so_far`). -/
def maxKey {T α : Type} [LinearOrder α] [OrderBot α] (key_fn : T → α) (l : List T) : α :=
  (l.map key_fn).foldr max ⊥

theorem maxKey_nil {T α : Type} [LinearOrder α] [OrderBot α] (key_fn : T → α) :
    maxKey key_fn [] = ⊥ := rfl

theorem maxKey_cons {T α : Type} [LinearOrder α] [OrderBot α] (key_fn : T → α)
    (x : T) (xs : List T) : maxKey key_fn (x :: xs) = max (key_fn x) (maxKey key_fn xs) := rfl

theorem le_maxKey {T α : Type} [LinearOrder α] [OrderBot α] (key_fn : T → α)
    {e : T} {l : List T} (he : e ∈ l) : key_fn e ≤ maxKey key_fn l := by
  induction l with
  | nil => cases he
  | cons x xs ih =>
    rw [maxKey_cons]
    rcases List.mem_cons.mp he with h | h
    · subst h; exact le_max_left _ _
    · exact le_trans (ih h) (le_max_right _ _)

/-- Invariant-carrying specification of the selection loop: assuming the
current choice (if any) scores exactly `best_so_far`, and that an absent
choice means the loop is still in its initial state (`best_so_far = ⊥`,
tie-count 0), the final choice is an element of the input (or the incoming
choice) scoring `max best_so_far (maxKey key_fn l)`, and the loop only
returns no choice when it started with none and the input was empty. -/
theorem selectLoop_spec {T α : Type} [LinearOrder α] [OrderBot α] (key_fn : T → α)
    (l : List T) :
    ∀ (choice : Option T) (n : ℕ) (best : α) (rng : StdRng),
      (∀ x, choice = some x → key_fn x = best) →
      (choice = none → best = ⊥ ∧ n = 0) →
      (∀ c, (selectLoop key_fn l choice n best rng).1 = some c →
          (choice = some c ∨ c ∈ l) ∧ key_fn c = max best (maxKey key_fn l)) ∧
      ((selectLoop key_fn l choice n best rng).1 = none → choice = none ∧ l = []) := by
  induction l with
  | nil =>
    intro choice n best rng hch _
    constructor
    · intro c hc
      simp only [selectLoop] at hc
      exact ⟨Or.inl hc, by rw [maxKey_nil, max_eq_left bot_le]; exact hch c hc⟩
    · intro hc
      simp only [selectLoop] at hc
      exact ⟨hc, rfl⟩
  | cons elt rest ih =>
    intro choice n best rng hch hnb
    by_cases hlt : best < key_fn elt
    · have hres : selectLoop key_fn (elt :: rest) choice n best rng
          = selectLoop key_fn rest (some elt) 1 (key_fn elt) rng := by
        simp only [selectLoop, if_pos hlt]
      have H := ih (some elt) 1 (key_fn elt) rng
        (fun x hx => by injection hx with h; rw [← h]) (fun hx => Option.noConfusion hx)
      rw [hres]
      constructor
      · intro c hc
        obtain ⟨hmem, hkey⟩ := H.1 c hc
        refine ⟨Or.inr ?_, ?_⟩
        · rcases hmem with h | h
          · injection h with h; rw [h]; exact List.mem_cons_self _ _
          · exact List.mem_cons_of_mem _ h
        · rw [maxKey_cons, hkey]
          exact (max_eq_right (le_trans hlt.le (le_max_left _ _))).symm
      · intro hc
        exact absurd (H.2 hc).1 (by simp)
    · by_cases heq : key_fn elt = best
      · have hres : selectLoop key_fn (elt :: rest) choice n best rng
            = selectLoop key_fn rest
                (if (rng.gen_bool (1 / ((n + 1 : ℕ) : ℚ))).1 then some elt else choice)
                (n + 1) best (rng.gen_bool (1 / ((n + 1 : ℕ) : ℚ))).2 := by
          simp only [selectLoop, if_neg hlt, if_pos heq]
        have hch2 : ∀ x,
            (if (rng.gen_bool (1 / ((n + 1 : ℕ) : ℚ))).1 then some elt else choice) = some x →
            key_fn x = best := by
          intro x hx
          by_cases hb : (rng.gen_bool (1 / ((n + 1 : ℕ) : ℚ))).1 = true
          · rw [if_pos hb] at hx; injection hx with h; rw [← h]; exact heq
          · rw [if_neg hb] at hx; exact hch x hx
        have hnb2 :
            (if (rng.gen_bool (1 / ((n + 1 : ℕ) : ℚ))).1 then some elt else choice) = none →
            best = ⊥ ∧ n + 1 = 0 := by
          intro hx
          by_cases hb : (rng.gen_bool (1 / ((n + 1 : ℕ) : ℚ))).1 = true
          · rw [if_pos hb] at hx; exact Option.noConfusion hx
          · rw [if_neg hb] at hx
            obtain ⟨_, hn0⟩ := hnb hx
            subst hn0
            exfalso
            apply hb
            have hs : rng.sample rng.idx < 1 / ((0 + 1 : ℕ) : ℚ) := by
              norm_num
              exact rng.sample_lt_one rng.idx
            simpa [StdRng.gen_bool] using hs
        have H := ih _ (n + 1) best (rng.gen_bool (1 / ((n + 1 : ℕ) : ℚ))).2 hch2 hnb2
        rw [hres]
        constructor
        · intro c hc
          obtain ⟨hmem, hkey⟩ := H.1 c hc
          refine ⟨?_, ?_⟩
          · rcases hmem with h | h
            · by_cases hb : (rng.gen_bool (1 / ((n + 1 : ℕ) : ℚ))).1 = true
              · rw [if_pos hb] at h; injection h with h
                exact Or.inr (by rw [h]; exact List.mem_cons_self _ _)
              · rw [if_neg hb] at h; exact Or.inl h
            · exact Or.inr (List.mem_cons_of_mem _ h)
          · rw [maxKey_cons, heq, hkey, ← max_assoc, max_self]
        · intro hc
          exact absurd (hnb2 (H.2 hc).1).2 (Nat.succ_ne_zero n)
      · have hle : key_fn elt ≤ best := le_of_not_lt hlt
        have hres : selectLoop key_fn (elt :: rest) choice n best rng
            = selectLoop key_fn rest choice n best rng := by
          simp only [selectLoop, if_neg hlt, if_neg heq]
        have H := ih choice n best rng hch hnb
        rw [hres]
        constructor
        · intro c hc
          obtain ⟨hmem, hkey⟩ := H.1 c hc
          refine ⟨hmem.imp id (List.mem_cons_of_mem _), ?_⟩
          rw [maxKey_cons, ← max_assoc, max_eq_left hle]
          exact hkey
        · intro hc
          obtain ⟨hcn, _⟩ := H.2 hc
          obtain ⟨hbot, _⟩ := hnb hcn
          rw [hbot] at hle heq
          exact absurd (le_bot_iff.mp hle) heq

/-- Specification of `PolicyRng::select_by_key`: the result is `none` iff
the input is empty, and any returned element belongs to the input and
scores its maximum. -/
theorem select_by_key_spec {T α : Type} [LinearOrder α] [OrderBot α]
    (r : PolicyRng) (l : List T) (key_fn : T → α) :
    (∀ c, (r.select_by_key l key_fn).1 = some c → c ∈ l ∧ key_fn c = maxKey key_fn l) ∧
    ((r.select_by_key l key_fn).1 = none ↔ l = []) := by
  have H := selectLoop_spec key_fn l none 0 ⊥ r.rng
    (fun x hx => Option.noConfusion hx) (fun _ => ⟨rfl, rfl⟩)
  constructor
  · intro c hc
    obtain ⟨hmem, hkey⟩ := H.1 c hc
    refine ⟨?_, ?_⟩
    · rcases hmem with h | h
      · exact Option.noConfusion h
      · exact h
    · rw [hkey]; exact max_eq_right bot_le
  · constructor
    · intro hc; exact (H.2 hc).2
    · intro hl; subst hl; rfl

/-- Modelled from the spec: the edge-statistics contract (spec section 6)
consumed read-only by the policies; the owning `MoveInfo` structure lives
in the external tree module.  `visits` is the `u64` visit counter,
`sum_rewards` the signed accumulated reward, `move_evaluation` the prior
evaluation, read as a numeric (`f64`) value by the AlphaGo policy. -/
structure MoveInfo where
  visits : ℕ
  sum_rewards : ℤ
  move_evaluation : ℝ

/-- `UCTPolicy` (tree_policy.rs:23-45); the phantom move-evaluation type
parameter is dropped (it is unused in scoring). -/
structure UCTPolicy where
  exploration_constant : ℚ
deriving DecidableEq

/-- `UCTPolicy::new` (tree_policy.rs:30-40): asserts
`exploration_constant > 0.0`; the panic is modelled as `none`. -/
def UCTPolicy.new (c : ℚ) : Option UCTPolicy :=
  if 0 < c then some ⟨c⟩ else none

/-- `RECIPROCAL_TABLE_LEN` (tree_policy.rs:47). -/
def RECIPROCAL_TABLE_LEN : ℕ := 128

/-- The reciprocal table built in `AlphaGoPolicy::new` (tree_policy.rs:62-64):
`(0..128).map(|x| if x == 0 { 2.0 } else { 1.0 / x })`. -/
def reciprocalTable : List ℚ :=
  (List.range RECIPROCAL_TABLE_LEN).map fun x : ℕ => if x = 0 then 2 else 1 / (x : ℚ)

/-- `AlphaGoPolicy` (tree_policy.rs:49-53). -/
structure AlphaGoPolicy where
  exploration_constant : ℚ
  reciprocals : List ℚ
deriving DecidableEq

/-- `AlphaGoPolicy::new` (tree_policy.rs:56-69): asserts
`exploration_constant > 0.0` (panic modelled as `none`), then builds the
reciprocal table. -/
def AlphaGoPolicy.new (c : ℚ) : Option AlphaGoPolicy :=
  if 0 < c then some ⟨c, reciprocalTable⟩ else none

/-- `AlphaGoPolicy::reciprocal` (tree_policy.rs:75-81): table lookup below
`RECIPROCAL_TABLE_LEN`, direct division otherwise.  The source's unchecked
index is modelled with a default value; for a policy built by `new` the
index is always within the 128-entry table. -/
def AlphaGoPolicy.reciprocal (p : AlphaGoPolicy) (x : ℕ) : ℚ :=
  if x < RECIPROCAL_TABLE_LEN then p.reciprocals.getD x 0 else 1 / (x : ℚ)

/-- The UCT per-edge score (closure at tree_policy.rs:100-113): `INFINITY`
(`⊤`) for a never-visited edge, otherwise
`exploration_constant * sqrt(ln(parent_visits) / child_visits)
 + sum_rewards / child_visits`. -/
noncomputable def uctScore (c : ℚ) (parent_visits : ℕ) (mov : MoveInfo) : EReal :=
  let sum_rewards := mov.sum_rewards
  let child_visits := mov.visits
  if child_visits = 0 then
    ⊤
  else
    let explore_term := Real.sqrt (Real.log (parent_visits : ℝ) / (child_visits : ℝ))
    let mean_action_value := (sum_rewards : ℝ) / (child_visits : ℝ)
    (((c : ℝ) * explore_term + mean_action_value : ℝ) : EReal)

/-- `UCTPolicy::choose_child` (tree_policy.rs:88-115): `parent_visits` is
the sum of `visits` over the candidate edges; selection is by
`PolicyRng::select_by_key` on the UCT score.  The source's final `unwrap`
is left to the caller (the `Option` is returned). -/
noncomputable def UCTPolicy.choose_child (p : UCTPolicy) (r : PolicyRng)
    (moves : List MoveInfo) : Option MoveInfo × PolicyRng :=
  let parent_visits := (moves.map MoveInfo.visits).sum
  r.select_by_key moves fun mov => uctScore p.exploration_constant parent_visits mov

/-- `AlphaGoPolicy::choose_child` (tree_policy.rs:122-145): `total_visits`
is the sum of `visits` plus one, `explore_coef` is
`exploration_constant * sqrt(total_visits)`, and each edge scores
`(sum_rewards + explore_coef * policy_evaln) * reciprocal(child_visits)`.
The finite `f64` scores are coerced into `EReal` for the comparison with
the loop's starting `NEG_INFINITY`. -/
noncomputable def AlphaGoPolicy.choose_child (p : AlphaGoPolicy) (r : PolicyRng)
    (moves : List MoveInfo) : Option MoveInfo × PolicyRng :=
  let total_visits := (moves.map MoveInfo.visits).sum + 1
  let sqrt_total_visits := Real.sqrt (total_visits : ℝ)
  let explore_coef := (p.exploration_constant : ℝ) * sqrt_total_visits
  r.select_by_key moves fun mov =>
    let sum_rewards := (mov.sum_rewards : ℝ)
    let child_visits := mov.visits
    let policy_evaln := mov.move_evaluation
    (((sum_rewards + explore_coef * policy_evaln)
      * ((p.reciprocal child_visits : ℚ) : ℝ) : ℝ) : EReal)

/-- `AlphaGoPolicy::validate_evaluations` (tree_policy.rs:147-163): every
prior must be `>= -1e-6`, and when the batch is non-empty its sum must be
within `0.1` of `1.0`.  The proposition holds iff no assertion fires. -/
def validate_evaluations (evalns : List ℚ) : Prop :=
  (∀ x ∈ evalns, -(1 / 1000000) ≤ x) ∧ (1 ≤ evalns.length → |evalns.sum - 1| < 1 / 10)

instance (evalns : List ℚ) : Decidable (validate_evaluations evalns) := by
  unfold validate_evaluations
  exact inferInstance

/-- The shift computation of `WeightedRng::select_by_key`
(tree_policy.rs:236-241): the minimum score over the materialized
candidates (`min_by`, `none` on an empty list — the source `unwrap`s it),
turned into the non-negative shift `if minimal < 0.0 { -minimal } else { 0.01 }`. -/
def weightShift (scores : List ℚ) : Option ℚ :=
  scores.min?.map fun minimal => if minimal < 0 then -minimal else 1 / 100

/-- Modelled from the rand crate contract: `SliceRandom::choose_weighted`
draws a target uniformly in `[0, total_weight)` and walks the prefix sums;
it errors (modelled `none`) when a weight is negative or the total weight
is not positive. -/
def pickByWeight {T : Type} (w : T → ℚ) : ℚ → List T → Option T
  | _, [] => none
  | target, t :: ts => if target < w t then some t else pickByWeight w (target - w t) ts

/-- Modelled from the rand crate contract: see `pickByWeight`. -/
def chooseWeighted {T : Type} (rng : StdRng) (l : List T) (w : T → ℚ) :
    Option T × StdRng :=
  let total := (l.map w).sum
  let q := rng.sample rng.idx
  let rng2 : StdRng := { rng with idx := rng.idx + 1 }
  if (∀ t ∈ l, 0 ≤ w t) ∧ 0 < total then (pickByWeight w (q * total) l, rng2)
  else (none, rng2)

/-- Modelled from the rand crate contract: `SliceRandom::choose` picks a
uniformly random element (`none` only on an empty slice). -/
def uniformChoose {T : Type} (rng : StdRng) (l : List T) : Option T × StdRng :=
  (l[⌊rng.sample rng.idx * (l.length : ℚ)⌋₊]?, { rng with idx := rng.idx + 1 })

/-- `WeightedRng::select_by_key` (tree_policy.rs:226-256): materialize the
candidates, `unwrap` the minimum score (`Except.error` models the panic on
an empty list), shift all scores by `weightShift`, weighted-sample, and on
failure fall back to a uniform pick (the `println!` diagnostic is a side
effect outside the model). -/
def WeightedRng.select_by_key {T : Type} (r : WeightedRng) (elts : List T)
    (key_fn : T → ℚ) : Except Unit (Option T × WeightedRng) :=
  let options := elts
  match weightShift (options.map key_fn) with
  | none => Except.error ()
  | some minimal =>
    match chooseWeighted r.rng options (fun v => key_fn v + minimal) with
    | (some t, rng2) => Except.ok (some t, ⟨rng2⟩)
    | (none, rng2) =>
      let fb := uniformChoose rng2 options
      Except.ok (fb.1, ⟨fb.2⟩)

/-- Spec-side definition (spec section 4.1, UCT step 1): `parent_visits` is
the sum of `visits` over all candidate edges of the current call. -/
def parentVisitsSpec (moves : List MoveInfo) : ℕ :=
  (moves.map MoveInfo.visits).sum

/-- Spec-side definition (spec section 4.1, UCT step 2): positive infinity
for a never-visited edge, otherwise
`exploration_constant * sqrt(ln(parent_visits) / child_visits)
 + sum_rewards / child_visits`. -/
noncomputable def uctScoreSpec (c : ℚ) (parent_visits : ℕ) (mov : MoveInfo) : EReal :=
  if mov.visits = 0 then
    ⊤
  else
    (((c : ℝ) * Real.sqrt (Real.log (parent_visits : ℝ) / (mov.visits : ℝ))
      + (mov.sum_rewards : ℝ) / (mov.visits : ℝ) : ℝ) : EReal)

/-- Spec-side definition (spec section 4.1, AlphaGo step 1):
`total_visits` = sum of `visits` over candidates, plus one. -/
def totalVisitsSpec (moves : List MoveInfo) : ℕ :=
  (moves.map MoveInfo.visits).sum + 1

/-- Spec-side definition (spec section 4.1, AlphaGo step 2):
`explore_coef = exploration_constant * sqrt(total_visits)`. -/
noncomputable def exploreCoefSpec (c : ℚ) (moves : List MoveInfo) : ℝ :=
  (c : ℝ) * Real.sqrt (totalVisitsSpec moves : ℝ)

/-- Spec-side definition (spec section 4.1, AlphaGo step 3): per-edge score
`(sum_rewards + explore_coef * prior_evaluation) * reciprocal(visits)`,
with `prior_evaluation` read as a numeric value. -/
noncomputable def alphaGoScoreSpec (p : AlphaGoPolicy) (moves : List MoveInfo)
    (mov : MoveInfo) : ℝ :=
  ((mov.sum_rewards : ℝ) + exploreCoefSpec p.exploration_constant moves * mov.move_evaluation)
    * ((p.reciprocal mov.visits : ℚ) : ℝ)

/-- The three concrete candidate edges of the end-to-end UCT scenario
(spec section 8): visits `[0, 5, 5]`, reward sums `[0, 3, 1]`, priors
unused (zero). -/
def mv0 : MoveInfo := ⟨0, 0, 0⟩

def mv1 : MoveInfo := ⟨5, 3, 0⟩

def mv2 : MoveInfo := ⟨5, 1, 0⟩

def movesC : List MoveInfo := [mv0, mv1, mv2]

/-- A fixed `StdRng` whose samples are all zero, used to instantiate
universally quantified generator arguments at a concrete input. -/
def rng0 : StdRng :=
  ⟨fun _ => 0, 0, fun _ => le_rfl, fun _ => by norm_num⟩

def prng0 : PolicyRng := ⟨rng0⟩

def wrng0 : WeightedRng := ⟨rng0⟩

/-- C1: in `UCTPolicy::choose_child`, `parent_visits` is the sum of
`visits` over all candidate edges of the current call, and each candidate
edge scores positive infinity when its `visits == 0` and otherwise
`exploration_constant * sqrt(ln(parent_visits) / child_visits)
 + sum_rewards / child_visits`. -/
theorem c1_uct_score_formula :
    (∀ (p : UCTPolicy) (r : PolicyRng) (moves : List MoveInfo),
        p.choose_child r moves
          = r.select_by_key moves fun mov =>
              uctScoreSpec p.exploration_constant (parentVisitsSpec moves) mov)
    ∧ (∀ (c : ℚ) (pv : ℕ) (mov : MoveInfo), uctScore c pv mov = uctScoreSpec c pv mov) :=
  ⟨fun _ _ _ => rfl, fun _ _ _ => rfl⟩

/-- C3: in `AlphaGoPolicy::choose_child`, `total_visits` is the sum of
`visits` over the candidates plus one, `explore_coef` is
`exploration_constant * sqrt(total_visits)`, and each candidate edge
scores `(sum_rewards + explore_coef * prior_evaluation) * reciprocal(visits)`
with the prior read as a numeric value. -/
theorem c3_alphago_score_formula :
    ∀ (p : AlphaGoPolicy) (r : PolicyRng) (moves : List MoveInfo),
      p.choose_child r moves
        = r.select_by_key moves fun mov => ((alphaGoScoreSpec p moves mov : ℝ) : EReal) :=
  fun _ _ _ => rfl

/-- C7: `PolicyRng::select_by_key` returns `none` exactly when the input
sequence is empty, and on a non-empty input returns some element of the
input whose score is the maximum score occurring in the sequence. -/
theorem c7_select_by_key_max {T α : Type} [LinearOrder α] [OrderBot α]
    (r : PolicyRng) (l : List T) (key_fn : T → α) :
    ((r.select_by_key l key_fn).1 = none ↔ l = [])
    ∧ (l ≠ [] → ∃ c, (r.select_by_key l key_fn).1 = some c ∧ c ∈ l
        ∧ key_fn c = maxKey key_fn l ∧ ∀ e ∈ l, key_fn e ≤ key_fn c) := by
  have H := select_by_key_spec r l key_fn
  refine ⟨H.2, ?_⟩
  intro hne
  cases hres : (r.select_by_key l key_fn).1 with
  | none => exact absurd (H.2.mp hres) hne
  | some c =>
    obtain ⟨hmem, hkey⟩ := H.1 c hres
    exact ⟨c, rfl, hmem, hkey, fun e he => hkey ▸ le_maxKey key_fn he⟩

theorem c7_witness :
    ([(1 : ℕ), 2] ≠ [])
    ∧ (∃ c, (prng0.select_by_key [(1 : ℕ), 2] (fun n => ((n : ℚ) : WithBot ℚ))).1 = some c
        ∧ c ∈ [(1 : ℕ), 2]
        ∧ ((c : ℚ) : WithBot ℚ) = maxKey (fun n => ((n : ℚ) : WithBot ℚ)) [(1 : ℕ), 2]
        ∧ ∀ e ∈ [(1 : ℕ), 2], ((e : ℚ) : WithBot ℚ) ≤ ((c : ℚ) : WithBot ℚ)) :=
  ⟨by decide,
   (c7_select_by_key_max prng0 [(1 : ℕ), 2] (fun n => ((n : ℚ) : WithBot ℚ))).2 (by decide)⟩

/-- C2: for every non-empty candidate set containing an edge with
`visits == 0`, `UCTPolicy::choose_child` returns an edge with
`visits == 0`, regardless of the visited edges' statistics; in particular
with candidates of visits `[0, 5, 5]`, reward sums `[0, 3, 1]` and
exploration constant 1, it selects the sole unvisited first candidate for
every generator state (probability 1). -/
theorem c2_uct_prefers_unvisited :
    (∀ (p : UCTPolicy) (r : PolicyRng) (moves : List MoveInfo),
        moves ≠ [] → (∃ e ∈ moves, e.visits = 0) →
        ∃ c, (p.choose_child r moves).1 = some c ∧ c ∈ moves ∧ c.visits = 0)
    ∧ (∀ r : PolicyRng, ((UCTPolicy.mk 1).choose_child r movesC).1 = some mv0) := by
  have hgen : ∀ (p : UCTPolicy) (r : PolicyRng) (moves : List MoveInfo),
      moves ≠ [] → (∃ e ∈ moves, e.visits = 0) →
      ∃ c, (p.choose_child r moves).1 = some c ∧ c ∈ moves ∧ c.visits = 0 := by
    intro p r moves hne ⟨e, he, hv⟩
    have H := select_by_key_spec r moves
      (fun mov => uctScore p.exploration_constant ((moves.map MoveInfo.visits).sum) mov)
    cases hres : (p.choose_child r moves).1 with
    | none =>
      have hres2 : (r.select_by_key moves
          (fun mov => uctScore p.exploration_constant
            ((moves.map MoveInfo.visits).sum) mov)).1 = none := hres
      exact absurd (H.2.mp hres2) hne
    | some c =>
      have hres2 : (r.select_by_key moves
          (fun mov => uctScore p.exploration_constant
            ((moves.map MoveInfo.visits).sum) mov)).1 = some c := hres
      obtain ⟨hmem, hkey⟩ := H.1 c hres2
      refine ⟨c, rfl, hmem, ?_⟩
      have htop : uctScore p.exploration_constant ((moves.map MoveInfo.visits).sum) e = ⊤ := by
        simp only [uctScore, hv, if_pos]
      have hmaxtop : maxKey
          (fun mov => uctScore p.exploration_constant ((moves.map MoveInfo.visits).sum) mov)
          moves = ⊤ := by
        refine top_le_iff.mp ?_
        have hb : uctScore p.exploration_constant ((moves.map MoveInfo.visits).sum) e
            ≤ maxKey (fun mov => uctScore p.exploration_constant
                ((moves.map MoveInfo.visits).sum) mov) moves :=
          le_maxKey _ he
        rw [htop] at hb
        exact hb
      rw [hmaxtop] at hkey
      by_contra hvc
      simp only [uctScore, if_neg hvc] at hkey
      exact EReal.coe_ne_top _ hkey
  refine ⟨hgen, ?_⟩
  intro r
  obtain ⟨c, hc, hmem, hv⟩ := hgen ⟨1⟩ r movesC (by simp [movesC])
    ⟨mv0, by simp [movesC], rfl⟩
  have hcm : c = mv0 := by
    simp only [movesC, List.mem_cons, List.not_mem_nil, or_false] at hmem
    rcases hmem with h | h | h
    · exact h
    · exfalso; rw [h] at hv; exact absurd hv (by simp [mv1])
    · exfalso; rw [h] at hv; exact absurd hv (by simp [mv2])
  rw [← hcm]
  exact hc

theorem c2_witness :
    movesC ≠ [] ∧ (∃ e ∈ movesC, e.visits = 0)
    ∧ (∃ c, ((UCTPolicy.mk 1).choose_child prng0 movesC).1 = some c
        ∧ c ∈ movesC ∧ c.visits = 0) :=
  ⟨by simp [movesC], ⟨mv0, by simp [movesC], rfl⟩,
   c2_uct_prefers_unvisited.1 ⟨1⟩ prng0 movesC (by simp [movesC])
     ⟨mv0, by simp [movesC], rfl⟩⟩

theorem reciprocalTable_getD (x : ℕ) (hx : x < RECIPROCAL_TABLE_LEN) :
    reciprocalTable.getD x 0 = if x = 0 then 2 else 1 / (x : ℚ) := by
  rw [reciprocalTable, List.getD_eq_getElem?_getD, List.getElem?_map,
    List.getElem?_range hx]
  rfl

/-- C4: for an `AlphaGoPolicy` built by `new`, `reciprocal(0) = 2` (a
finite constant), `reciprocal(x) = 1 / x` from the 128-entry table for
`1 ≤ x < 128`, and `reciprocal(x) = 1 / x` by direct division for
`x ≥ 128`. -/
theorem c4_reciprocal (c : ℚ) (p : AlphaGoPolicy) (hp : AlphaGoPolicy.new c = some p) :
    p.reciprocal 0 = 2
    ∧ (∀ x : ℕ, 1 ≤ x → x < 128 → p.reciprocal x = 1 / (x : ℚ))
    ∧ (∀ x : ℕ, 128 ≤ x → p.reciprocal x = 1 / (x : ℚ)) := by
  have hrec : p.reciprocals = reciprocalTable := by
    rw [AlphaGoPolicy.new] at hp
    split at hp
    · injection hp with h; rw [← h]
    · exact Option.noConfusion hp
  refine ⟨?_, ?_, ?_⟩
  · rw [AlphaGoPolicy.reciprocal, if_pos (by norm_num [RECIPROCAL_TABLE_LEN]), hrec,
      reciprocalTable_getD 0 (by norm_num [RECIPROCAL_TABLE_LEN])]
    rfl
  · intro x h1 h128
    have hx : x < RECIPROCAL_TABLE_LEN := h128
    rw [AlphaGoPolicy.reciprocal, if_pos hx, hrec, reciprocalTable_getD x hx,
      if_neg (by omega)]
  · intro x h128
    rw [AlphaGoPolicy.reciprocal, if_neg (by rw [RECIPROCAL_TABLE_LEN]; omega)]

theorem c4_witness :
    AlphaGoPolicy.new 1 = some ⟨1, reciprocalTable⟩
    ∧ (⟨1, reciprocalTable⟩ : AlphaGoPolicy).reciprocal 0 = 2
    ∧ (⟨1, reciprocalTable⟩ : AlphaGoPolicy).reciprocal 7 = 1 / ((7 : ℕ) : ℚ)
    ∧ (⟨1, reciprocalTable⟩ : AlphaGoPolicy).reciprocal 200 = 1 / ((200 : ℕ) : ℚ) :=
  ⟨rfl, (c4_reciprocal 1 ⟨1, reciprocalTable⟩ rfl).1,
   (c4_reciprocal 1 ⟨1, reciprocalTable⟩ rfl).2.1 7 (by norm_num) (by norm_num),
   (c4_reciprocal 1 ⟨1, reciprocalTable⟩ rfl).2.2 200 (by norm_num)⟩

/-- C5: `validate_evaluations` fails iff some prior is below `-1e-6`, or
the batch is non-empty and its sum differs from 1 by at least `0.1`; the
distribution `[0.3, 0.3, 0.4]` passes, `[0.3, 0.3, 0.1]` fails on the sum
bound, `[-0.2, 1.2]` fails on the non-negativity bound, and the empty
batch passes. -/
theorem c5_validate_evaluations :
    (∀ evalns : List ℚ,
        ¬ validate_evaluations evalns
          ↔ (∃ x ∈ evalns, x < -(1 / 1000000))
            ∨ (evalns ≠ [] ∧ 1 / 10 ≤ |evalns.sum - 1|))
    ∧ validate_evaluations [3/10, 3/10, 4/10]
    ∧ ¬ validate_evaluations [3/10, 3/10, 1/10]
    ∧ (1 / 10 : ℚ) ≤ |([3/10, 3/10, 1/10] : List ℚ).sum - 1|
    ∧ ¬ validate_evaluations [-(2/10), 12/10]
    ∧ (∃ x ∈ ([-(2/10), 12/10] : List ℚ), x < -(1 / 1000000))
    ∧ validate_evaluations [] := by
  refine ⟨?_, ?_, ?_, ?_, ?_, ?_, ?_⟩
  case refine_2 =>
    constructor
    · intro x hx
      simp only [List.mem_cons, List.not_mem_nil, or_false] at hx
      rcases hx with h | h | h <;> rw [h] <;> norm_num
    · intro _
      have hs : ([3/10, 3/10, 4/10] : List ℚ).sum = 1 := by norm_num
      rw [hs]
      norm_num
  case refine_3 =>
    rintro ⟨-, hsum⟩
    have hs : ([3/10, 3/10, 1/10] : List ℚ).sum = 7/10 := by norm_num
    rw [hs] at hsum
    have hlt := hsum (by simp)
    rw [show (7/10 : ℚ) - 1 = -(3/10) by norm_num, abs_neg,
      abs_of_nonneg (by norm_num : (0:ℚ) ≤ 3/10)] at hlt
    norm_num at hlt
  case refine_4 =>
    have hs : ([3/10, 3/10, 1/10] : List ℚ).sum = 7/10 := by norm_num
    rw [hs, show (7/10 : ℚ) - 1 = -(3/10) by norm_num, abs_neg,
      abs_of_nonneg (by norm_num : (0:ℚ) ≤ 3/10)]
    norm_num
  case refine_5 =>
    rintro ⟨hall, -⟩
    have hb := hall (-(2/10)) (by simp)
    norm_num at hb
  case refine_6 =>
    exact ⟨-(2/10), by simp, by norm_num⟩
  case refine_7 =>
    exact ⟨by simp, fun h => by simp at h⟩
  intro evalns
  rw [validate_evaluations, not_and_or]
  constructor
  · rintro (h | h)
    · left
      push_neg at h
      obtain ⟨x, hx, hlt⟩ := h
      exact ⟨x, hx, hlt⟩
    · right
      push_neg at h
      obtain ⟨hlen, hsum⟩ := h
      exact ⟨List.length_pos.mp hlen, hsum⟩
  · rintro (⟨x, hx, hlt⟩ | ⟨hne, hsum⟩)
    · left
      push_neg
      exact ⟨x, hx, hlt⟩
    · right
      push_neg
      exact ⟨List.length_pos.mpr hne, hsum⟩

theorem c5_witness : ¬ validate_evaluations [-(2/10), 12/10] :=
  (c5_validate_evaluations.1 [-(2/10), 12/10]).mpr
    (Or.inl ⟨-(2/10), by simp, by norm_num⟩)

/-- C8: both policy constructors fail (panic, modelled as `none`) exactly
when the supplied exploration constant is non-positive, and a successful
construction stores the constant unchanged (no clamping), so every policy
object built by a constructor has a positive exploration constant. -/
theorem c8_constructor_positive (c : ℚ) :
    (UCTPolicy.new c = none ↔ c ≤ 0)
    ∧ (AlphaGoPolicy.new c = none ↔ c ≤ 0)
    ∧ (∀ p, UCTPolicy.new c = some p → 0 < p.exploration_constant ∧ p.exploration_constant = c)
    ∧ (∀ p, AlphaGoPolicy.new c = some p →
        0 < p.exploration_constant ∧ p.exploration_constant = c) := by
  rw [UCTPolicy.new, AlphaGoPolicy.new]
  by_cases h : 0 < c
  · rw [if_pos h, if_pos h]
    refine ⟨⟨fun hx => Option.noConfusion hx, fun hx => absurd h (not_lt.mpr hx)⟩,
      ⟨fun hx => Option.noConfusion hx, fun hx => absurd h (not_lt.mpr hx)⟩, ?_, ?_⟩
    · intro p hp
      injection hp with h2
      rw [← h2]
      exact ⟨h, rfl⟩
    · intro p hp
      injection hp with h2
      rw [← h2]
      exact ⟨h, rfl⟩
  · rw [if_neg h, if_neg h]
    exact ⟨⟨fun _ => not_lt.mp h, fun _ => rfl⟩, ⟨fun _ => not_lt.mp h, fun _ => rfl⟩,
      fun p hp => Option.noConfusion hp, fun p hp => Option.noConfusion hp⟩

theorem c8_witness :
    UCTPolicy.new (-1) = none
    ∧ AlphaGoPolicy.new (-1) = none
    ∧ (0 < (UCTPolicy.mk 1).exploration_constant ∧ (UCTPolicy.mk 1).exploration_constant = 1)
    ∧ (0 < (AlphaGoPolicy.mk 1 reciprocalTable).exploration_constant
        ∧ (AlphaGoPolicy.mk 1 reciprocalTable).exploration_constant = 1) :=
  ⟨(c8_constructor_positive (-1)).1.mpr (by norm_num),
   (c8_constructor_positive (-1)).2.1.mpr (by norm_num),
   (c8_constructor_positive 1).2.2.1 ⟨1⟩ rfl,
   (c8_constructor_positive 1).2.2.2 ⟨1, reciprocalTable⟩ rfl⟩

/-- C6 (divergence witness): on an empty candidate set,
`WeightedRng::select_by_key` does not return an empty result — the
`min_by(...).unwrap()` at tree_policy.rs:236-240 receives `None` and
panics (modelled as `Except.error`), contradicting the claimed non-fatal
empty-input contract. -/
theorem c6_weighted_empty_panics :
    wrng0.select_by_key ([] : List ℚ) (fun q => q) = Except.error () := rfl

/-- C9: the weight shift of `WeightedRng::select_by_key` is the absolute
value of the minimum score when that minimum is negative and the fixed
floor `0.01` otherwise (and it is always strictly positive); for scores
`[-5, 3, 3]` the shift is `5`, for `[0, 0]` it is `0.01`. -/
theorem c9_weight_shift (scores : List ℚ) (m : ℚ) (hm : scores.min? = some m) :
    (m < 0 → weightShift scores = some (-m))
    ∧ (0 ≤ m → weightShift scores = some (1 / 100))
    ∧ (∀ s, weightShift scores = some s → 0 < s)
    ∧ weightShift [-5, 3, 3] = some 5
    ∧ weightShift [0, 0] = some (1 / 100) := by
  refine ⟨?_, ?_, ?_, by decide, rfl⟩
  · intro hneg
    rw [weightShift, hm, Option.map_some', if_pos hneg]
  · intro hpos
    rw [weightShift, hm, Option.map_some', if_neg (not_lt.mpr hpos)]
  · intro s hs
    rw [weightShift, hm, Option.map_some'] at hs
    injection hs with hs
    rw [← hs]
    split
    · rename_i hneg
      exact neg_pos.mpr hneg
    · norm_num

theorem c9_witness :
    ([-5, 3, 3] : List ℚ).min? = some (-5)
    ∧ weightShift [-5, 3, 3] = some 5
    ∧ weightShift [0, 0] = some (1 / 100) :=
  ⟨by decide, (c9_weight_shift [-5, 3, 3] (-5) (by decide)).2.2.2.1,
   (c9_weight_shift [-5, 3, 3] (-5) (by decide)).2.2.2.2⟩

/-- C10: `PolicyRng::select_by_key` from a fixed seed is deterministic —
the outcome is a function of the seed, the input sequence (order included)
and the scoring function; consequently `UCTPolicy::choose_child` with a
fixed-seed `PolicyRng` and fixed candidate statistics is reproducible. -/
theorem c10_deterministic :
    (∀ (T α : Type) [LinearOrder α] [OrderBot α] (s1 s2 : ℕ) (l1 l2 : List T)
        (k1 k2 : T → α), s1 = s2 → l1 = l2 → k1 = k2 →
        (PolicyRng.new s1).select_by_key l1 k1 = (PolicyRng.new s2).select_by_key l2 k2)
    ∧ (∀ (p : UCTPolicy) (s1 s2 : ℕ) (ms1 ms2 : List MoveInfo), s1 = s2 → ms1 = ms2 →
        p.choose_child (PolicyRng.new s1) ms1 = p.choose_child (PolicyRng.new s2) ms2) := by
  constructor
  · intro T α iLO iOB s1 s2 l1 l2 k1 k2 hs hl hk
    subst hs; subst hl; subst hk; rfl
  · intro p s1 s2 ms1 ms2 hs hm
    subst hs; subst hm; rfl

theorem c10_witness :
    (PolicyRng.new 42).select_by_key [(1 : ℕ), 2] (fun n => ((n : ℚ) : WithBot ℚ))
      = (PolicyRng.new 42).select_by_key [(1 : ℕ), 2] (fun n => ((n : ℚ) : WithBot ℚ))
    ∧ (UCTPolicy.mk 1).choose_child (PolicyRng.new 42) movesC
      = (UCTPolicy.mk 1).choose_child (PolicyRng.new 42) movesC :=
  ⟨c10_deterministic.1 ℕ (WithBot ℚ) 42 42 [1, 2] [1, 2] _ _ rfl rfl rfl,
   c10_deterministic.2 ⟨1⟩ 42 42 movesC movesC rfl rfl⟩
